import Mathlib

/-!
A verification development for `main.go` of the maxminddb-to-nft tool.

The program is shallowly embedded: Go strings are modelled as lists of
Unicode characters (`GoString`), Go's byte-oriented `len` by summing
per-character UTF-8 sizes, the maps from country code to prefix list as
association lists in first-insertion order, emitted files as lists of
text lines, and the file system as an oracle saying which directory
creations, file opens and writes succeed.

The file is organized as: all definitions first, then all lemmas and
theorems.
-/

namespace MaxmindToNft

/-- A Go string, modelled as its sequence of Unicode characters. -/
abbrev GoString := List Char

/-- UTF-8 byte length of one character; Go's `len` counts string bytes. -/
def charUtf8Len (c : Char) : Nat :=
  if c.toNat < 0x80 then 1
  else if c.toNat < 0x800 then 2
  else if c.toNat < 0x10000 then 3
  else 4

/-- Go `len(s)` for a string: its number of UTF-8 bytes. -/
def goLen (s : GoString) : Nat := (s.map charUtf8Len).sum

/-- Go `strings.ToUpper` on one character, on the ASCII range (Go's
Unicode case table agrees with this mapping on ASCII; the validator below
only ever accepts all-ASCII strings, where the two tables coincide). -/
def goToUpperChar (c : Char) : Char :=
  if 'a' ≤ c ∧ c ≤ 'z' then Char.ofNat (c.toNat - 32) else c

/-- Go `strings.ToUpper`, characterwise. -/
def goToUpper (s : GoString) : GoString := s.map goToUpperChar

/-- `isAlphaOnly` (main.go:308-315): every rune is between 'A' and 'Z'. -/
def isAlphaOnly (s : GoString) : Bool :=
  s.all (fun r => !(r < 'A' || r > 'Z'))

/-- `isValidCountryCode` (main.go:301-306): byte length two, fixed by
`ToUpper`, and all characters in 'A'..'Z'. -/
def isValidCountryCode (code : GoString) : Bool :=
  goLen code == 2 && code == goToUpper code && isAlphaOnly code

/-- Go `strings.HasPrefix` with a one-character pattern. -/
def startsWithChar (c : Char) (s : GoString) : Bool :=
  match s with
  | [] => false
  | d :: _ => d == c

/-- Split a character list at every occurrence of `sep` (Go's
`strings.Split` with a one-character separator); always returns at least
one piece. -/
def splitChar (sep : Char) : List Char → List (List Char)
  | [] => [[]]
  | c :: rest =>
      if c = sep then [] :: splitChar sep rest
      else
        match splitChar sep rest with
        | [] => [[c]]
        | p :: ps => (c :: p) :: ps

/-- Join pieces with a one-character separator (inverse of `splitChar`). -/
def joinChar (sep : Char) : List (List Char) → List Char
  | [] => []
  | [x] => x
  | x :: xs => x ++ sep :: joinChar sep xs

/-- The element loop of Go's `path/filepath.Clean` on a Unix path (the
dependency of `isValidTarPath`), in its standard segment-stack
formulation: empty and "." elements are dropped; ".." pops the previous
real element, is dropped at the root of a rooted path, and accumulates at
the front of a relative path. The stack is kept in reverse order. -/
def cleanLoop (rooted : Bool) : List (List Char) → List (List Char) → List (List Char)
  | stack, [] => stack
  | stack, seg :: rest =>
      if seg = [] ∨ seg = ['.'] then cleanLoop rooted stack rest
      else if seg = ['.', '.'] then
        match stack with
        | [] =>
            if rooted then cleanLoop rooted [] rest
            else cleanLoop rooted [['.', '.']] rest
        | top :: s2 =>
            if top = ['.', '.'] then cleanLoop rooted (['.', '.'] :: top :: s2) rest
            else cleanLoop rooted s2 rest
      else cleanLoop rooted (seg :: stack) rest

/-- Go `path/filepath.Clean` for Unix paths: "" becomes ".", a rooted path
keeps its leading separator, and an empty cleaned body becomes "." (or
stays "/" when rooted). -/
def filepathClean (path : GoString) : GoString :=
  if path = [] then ['.']
  else
    let rooted := startsWithChar '/' path
    let stack := cleanLoop rooted [] (splitChar '/' path)
    let body := joinChar '/' stack.reverse
    if rooted then '/' :: body
    else if body = [] then ['.'] else body

/-- Go `strings.Contains(s, "..")`: two consecutive '.' characters occur
anywhere in the string. -/
def strContainsDotDot : GoString → Bool
  | [] => false
  | [_] => false
  | c :: d :: rest =>
      if c = '.' ∧ d = '.' then true else strContainsDotDot (d :: rest)

/-- `isValidTarPath` (main.go:293-299): clean the path, then require that
the cleaned path has no ".." substring and no leading '/' or '\\'. -/
def isValidTarPath (path : GoString) : Bool :=
  let cleanPath := filepathClean path
  !strContainsDotDot cleanPath && !startsWithChar '/' cleanPath &&
    !startsWithChar '\\' cleanPath

/-- From the spec's words, for C3: the path contains a `..` path segment. -/
def specHasDotDotSegment (p : GoString) : Bool :=
  (splitChar '/' p).any (fun seg => seg == ['.', '.'])

/-- From the spec's words, for C3: "a relative, traversal-free path" — no
`..` segment and no leading path separator. -/
def specRelativeTraversalFree (p : GoString) : Bool :=
  !specHasDotDotSegment p && !startsWithChar '/' p && !startsWithChar '\\' p

/-- Go `strings.HasSuffix(s, suf)`. -/
def strEndsWith (suf s : GoString) : Bool := List.isSuffixOf suf s

/-- `maxDownloadSize` (main.go:22): 1024 MB. -/
def maxDownloadSize : Nat := 1024 * 1024 * 1024

/-- The ".mmdb" suffix the extractor looks for (main.go:125). -/
def mmdbSuffix : GoString := ".mmdb".toList

/-- One tar archive entry: header name, declared header size, and the
entry's data bytes (a well-formed archive has as many data bytes as the
header declares). -/
structure TarEntry where
  name : GoString
  size : Nat
  content : List Nat

/-- The outcome of `extractMMDBFromTar`: the extracted bytes, the
"MMDB file too large" error, or the "MMDB file not found" error. -/
inductive ExtractResult where
  | ok (data : List Nat)
  | tooLarge (size : Nat)
  | notFound
deriving DecidableEq

/-- `extractMMDBFromTar` (main.go:108-140): walk the entries in order;
skip any entry with an unsafe path; at the first remaining ".mmdb" entry,
fail if its declared size exceeds `maxDownloadSize` and otherwise return
its first `size` bytes; report not-found if the stream ends. -/
def extractMMDBFromTar : List TarEntry → ExtractResult
  | [] => .notFound
  | e :: rest =>
      if !isValidTarPath e.name then extractMMDBFromTar rest
      else if strEndsWith mmdbSuffix e.name then
        if e.size > maxDownloadSize then .tooLarge e.size
        else .ok (e.content.take e.size)
      else extractMMDBFromTar rest

/-- A tar entry the extraction loop does not skip: a path-safe name ending
in ".mmdb". -/
def qualifiesMMDB (e : TarEntry) : Bool :=
  isValidTarPath e.name && strEndsWith mmdbSuffix e.name

/-- A decoded MMDB record of shape `{ country: { iso_code: string } }`
(`countryRecord`, main.go:28-32). -/
structure CountryRecord where
  isoCode : GoString

/-- An IP address as `netip.Addr` stores it: either a 4-byte IPv4 address
(four bytes) or a 16-byte IPv6 address (eight 16-bit groups). -/
inductive GoAddr where
  | v4 (b0 b1 b2 b3 : Nat)
  | v6 (g0 g1 g2 g3 g4 g5 g6 g7 : Nat)
deriving DecidableEq

/-- `netip.Addr.Is4`: true exactly for the 4-byte form. -/
def GoAddr.is4 : GoAddr → Bool
  | .v4 _ _ _ _ => true
  | .v6 _ _ _ _ _ _ _ _ => false

/-- `netip.Prefix`: an address plus a prefix length in bits. -/
structure IpPfx where
  addr : GoAddr
  bits : Nat
deriving DecidableEq

/-- One yield of `db.Networks()` (main.go:149): the network prefix and the
outcome of `result.Decode` — `none` models a per-record decode error. -/
structure NetResult where
  pfx : IpPfx
  decoded : Option CountryRecord

/-- A country bucket (`geoIPGenerator.ipv4` / `.ipv6`): an association
list from country code to prefix list, in first-insertion key order (Go
map iteration order is unspecified; every order-sensitive use in the
source sorts the keys first). -/
abbrev PfxMap := List (GoString × List IpPfx)

/-- Go `m[code]` read: the stored list, or the zero value `nil`. -/
def mapGet (m : PfxMap) (code : GoString) : List IpPfx :=
  match m with
  | [] => []
  | (k, v) :: rest => if k = code then v else mapGet rest code

/-- Go `m[code] = append(m[code], p)`. -/
def mapAppend (m : PfxMap) (code : GoString) (p : IpPfx) : PfxMap :=
  match m with
  | [] => [(code, [p])]
  | (k, v) :: rest =>
      if k = code then (k, v ++ [p]) :: rest
      else (k, v) :: mapAppend rest code p

/-- The key list of a bucket map. -/
def mapKeys (m : PfxMap) : List GoString := m.map (fun kv => kv.1)

/-- The aggregation state: the generator's two country buckets. -/
structure GeoState where
  ipv4 : PfxMap
  ipv6 : PfxMap

/-- The body of the `db.Networks()` loop in `loadGeoIPData`
(main.go:149-167): skip decode failures; skip empty or invalid country
codes; append the prefix to the IPv4 bucket when the address is a 4-byte
address and to the IPv6 bucket otherwise. -/
def loadStep (st : GeoState) (r : NetResult) : GeoState :=
  match r.decoded with
  | none => st
  | some record =>
      let code := record.isoCode
      if code = [] ∨ isValidCountryCode code = false then st
      else if r.pfx.addr.is4 then
        { st with ipv4 := mapAppend st.ipv4 code r.pfx }
      else
        { st with ipv6 := mapAppend st.ipv6 code r.pfx }

/-- `loadGeoIPData` (main.go:142-170) over the decoder's yields, starting
from the empty buckets of `newGeoIPGenerator` (main.go:40-48). -/
def loadGeoIPData (results : List NetResult) : GeoState :=
  results.foldl loadStep { ipv4 := [], ipv6 := [] }

/-- From the claim's words, for C1: the prefixes the decoder yields whose
record decodes to country `code` and whose address is of the given family
(IPv4 exactly when `wantV4`), in yield order, skipping decode failures
and empty or invalid codes, with no deduplication and no sorting. -/
def specYieldedPfxs (results : List NetResult) (code : GoString) (wantV4 : Bool) :
    List IpPfx :=
  results.filterMap (fun r =>
    match r.decoded with
    | none => none
    | some record =>
        if record.isoCode = code ∧ record.isoCode ≠ [] ∧
            isValidCountryCode record.isoCode = true ∧ r.pfx.addr.is4 = wantV4
        then some r.pfx else none)

/-- The C10 invariant for one bucket: every key is a valid country code
and every stored prefix list is nonempty. -/
def bucketInv (m : PfxMap) : Prop :=
  ∀ c ∈ mapKeys m, isValidCountryCode c = true ∧ mapGet m c ≠ []

/-- Go `sort.Strings` order: bytewise lexicographic comparison (equal to
characterwise comparison on valid UTF-8). -/
def goStrLe : GoString → GoString → Bool
  | [], _ => true
  | _ :: _, [] => false
  | a :: as, b :: bs => if a = b then goStrLe as bs else decide (a < b)

/-- Insertion into an ascending list; building block of `sortStrings`. -/
def insertSorted (x : GoString) : List GoString → List GoString
  | [] => [x]
  | y :: ys => if goStrLe x y then x :: y :: ys else y :: insertSorted x ys

/-- Model of Go `sort.Strings` (main.go:210): the ascending reordering of
the key list. -/
def sortStrings (l : List GoString) : List GoString :=
  l.foldr insertSorted []

/-- Digit characters as Go's strconv emits them: '0'-'9', then lowercase
'a'-'f' for hex. -/
def natDigitChar (m : Nat) : Char :=
  if m < 10 then Char.ofNat (48 + m) else Char.ofNat (87 + m)

/-- Digits of `n` in base `b`, most significant first, onto `acc`; `fuel`
bounds the recursion (any fuel above `n` suffices). -/
def toDigitsAux (b : Nat) : Nat → Nat → List Char → List Char
  | 0, _, acc => acc
  | fuel + 1, n, acc =>
      if n < b then natDigitChar (n % b) :: acc
      else toDigitsAux b fuel (n / b) (natDigitChar (n % b) :: acc)

/-- Base-`b` representation of `n`, most significant digit first. -/
def toDigitsBase (b n : Nat) : List Char := toDigitsAux b (n + 1) n []

/-- Decimal digits, as Go's `%d` / `strconv.Itoa`. -/
def decStr (n : Nat) : GoString := toDigitsBase 10 n

/-- Lowercase hex digits without leading zeros, as netip's hex output. -/
def hexStr (n : Nat) : GoString := toDigitsBase 16 n

/-- netip `string4`: dotted decimal. -/
def string4 (b0 b1 b2 b3 : Nat) : GoString :=
  decStr b0 ++ ('.' :: decStr b1) ++ ('.' :: decStr b2) ++ ('.' :: decStr b3)

/-- The i-th 16-bit group of a 16-byte address (netip `v6u16`). -/
def v6u16 (g0 g1 g2 g3 g4 g5 g6 g7 : Nat) : Nat → Nat
  | 0 => g0
  | 1 => g1
  | 2 => g2
  | 3 => g3
  | 4 => g4
  | 5 => g5
  | 6 => g6
  | _ => g7

/-- Length of the run of zero groups of `g` starting at `i` (within the
eight groups); `fuel` bounds the recursion. -/
def zeroRunLen (g : Nat → Nat) : Nat → Nat → Nat
  | 0, _ => 0
  | fuel + 1, i => if i < 8 ∧ g i = 0 then zeroRunLen g fuel (i + 1) + 1 else 0

/-- The `zeroStart, zeroEnd` scan of netip's `string6`: the leftmost
longest run of at least two zero groups (the sentinel 255 when none). -/
def bestZeroRun (g : Nat → Nat) : Nat × Nat :=
  (List.range 8).foldl
    (fun zr i =>
      let j := i + zeroRunLen g 8 i
      if 2 ≤ j - i ∧ zr.2 - zr.1 < j - i then (i, j) else zr)
    (255, 255)

/-- The output loop of netip's `string6`: groups in lowercase hex joined
by ':', with the chosen zero run compressed to "::". -/
def string6Loop (g : Nat → Nat) (zs ze : Nat) : Nat → Nat → List Char
  | 0, _ => []
  | fuel + 1, i =>
      if i < 8 then
        if i = zs then
          if 8 ≤ ze then [':', ':']
          else ':' :: ':' :: (hexStr (g ze) ++ string6Loop g zs ze fuel (ze + 1))
        else
          (if 0 < i then [':'] else []) ++ hexStr (g i) ++ string6Loop g zs ze fuel (i + 1)
      else []

/-- netip `string6`: RFC 5952 textual form of a 16-byte address. -/
def string6 (g : Nat → Nat) : GoString :=
  let zr := bestZeroRun g
  string6Loop g zr.1 zr.2 9 0

/-- `netip.Addr.Is4In6`: the mapped form `::ffff:a.b.c.d`. -/
def is4In6 (g0 g1 g2 g3 g4 g5 : Nat) : Bool :=
  g0 == 0 && g1 == 0 && g2 == 0 && g3 == 0 && g4 == 0 && g5 == 0xffff

/-- `netip.Addr.String` (reached from main.go:281 via `Prefix.String`):
dotted decimal for a 4-byte address; for a 16-byte address the 4-in-6
form "::ffff:a.b.c.d" when mapped, else `string6`. Zones never occur in
this pipeline. -/
def addrString : GoAddr → GoString
  | .v4 b0 b1 b2 b3 => string4 b0 b1 b2 b3
  | .v6 g0 g1 g2 g3 g4 g5 g6 g7 =>
      if is4In6 g0 g1 g2 g3 g4 g5 then
        ':' :: ':' :: 'f' :: 'f' :: 'f' :: 'f' :: ':' ::
          string4 (g6 / 256) (g6 % 256) (g7 / 256) (g7 % 256)
      else string6 (v6u16 g0 g1 g2 g3 g4 g5 g6 g7)

/-- `netip.Prefix.String` (main.go:281): address, '/', decimal bits. -/
def pfxString (p : IpPfx) : GoString :=
  addrString p.addr ++ '/' :: decStr p.bits

/-- Go `strings.Join(parts, ", ")` (main.go:284). -/
def joinCommaSpace : List GoString → GoString
  | [] => []
  | [x] => x
  | x :: xs => x ++ ',' :: ' ' :: joinCommaSpace xs

/-- `writeNFTSet` (main.go:272-289), as the lines it writes: the set
header with the country code, the type line, the flags line, one elements
line joining the prefixes' canonical CIDR texts with ", ", and the
closing brace of the set. -/
def writeNFTSet (code : GoString) (pfxs : List IpPfx) (ipType : GoString) :
    List GoString :=
  [ "    set ".toList ++ code ++ " \x7b".toList,
    "        type ".toList ++ ipType ++ "_addr".toList,
    "        flags interval".toList,
    "        elements = \x7b ".toList ++ joinCommaSpace (pfxs.map pfxString) ++
      " \x7d".toList,
    "    \x7d".toList ]

/-- The fixed two-line header (main.go:202-203 and 261-262). -/
def headerLines : List GoString :=
  ["#!/usr/sbin/nft -f".toList, "table inet geoip \x7b".toList]

/-- The closing brace line of each output file. -/
def closingLine : GoString := "\x7d".toList

/-- `generateGlobalFile` (main.go:195-226), as the lines of the file it
writes: header; for each country code of the bucket in sorted order,
skipping zero-prefix countries, one set block; closing brace. -/
def generateGlobalFile (countryMap : PfxMap) (ipType : GoString) : List GoString :=
  headerLines ++
    ((sortStrings (mapKeys countryMap)).map (fun code =>
      let pfxs := mapGet countryMap code
      if pfxs.length = 0 then [] else writeNFTSet code pfxs ipType)).flatten ++
    [closingLine]

/-- Go `filepath.Join(a, b)`: concatenate with '/' and `Clean`; empty
parts are dropped, and joining nothing yields "". -/
def goJoin2 (a b : GoString) : GoString :=
  if a = [] then (if b = [] then [] else filepathClean b)
  else if b = [] then filepathClean a
  else filepathClean (a ++ '/' :: b)

/-- The per-country directory `by_country/<code>` (main.go:249). -/
def countryDir (code : GoString) : GoString :=
  goJoin2 ("by_country".toList) code

/-- The per-country file name, `filepath.Join` of the country directory
and `<code>_<ipType>.nft` (main.go:254). -/
def countryFileName (code ipType : GoString) : GoString :=
  goJoin2 (countryDir code) (code ++ '_' :: (ipType ++ ".nft".toList))

/-- From the spec's words, for C6: the plain path
`by_country/<code>/<code>_{ipv4|ipv6}.nft`, no path cleaning involved. -/
def specCountryPath (code ipType : GoString) : GoString :=
  "by_country/".toList ++ code ++ '/' :: (code ++ '_' :: (ipType ++ ".nft".toList))

/-- `generateCountryFile` (main.go:244-270), as the file it creates:
`none` (no file at all) when the prefix list is empty, otherwise the file
name and its lines — header, exactly one set block, closing brace. -/
def generateCountryFile (code : GoString) (pfxs : List IpPfx) (ipType : GoString) :
    Option (GoString × List GoString) :=
  if pfxs.length = 0 then none
  else some (countryFileName code ipType,
    headerLines ++ writeNFTSet code pfxs ipType ++ [closingLine])

/-- `generateCountryFiles` (main.go:228-242): one file per IPv4 bucket
key, then one per IPv6 bucket key, each looked up as the source's
`g.ipv4[code]` does. -/
def generateCountryFiles (st : GeoState) : List (GoString × List GoString) :=
  (st.ipv4.filterMap (fun kv =>
      generateCountryFile kv.1 (mapGet st.ipv4 kv.1) ("ipv4".toList))) ++
  (st.ipv6.filterMap (fun kv =>
      generateCountryFile kv.1 (mapGet st.ipv6 kv.1) ("ipv6".toList)))

/-- Drop a literal leading pattern, failing when absent. -/
def dropStart : GoString → GoString → Option GoString
  | [], s => some s
  | _ :: _, [] => none
  | p :: ps, c :: cs => if p = c then dropStart ps cs else none

/-- Drop a literal trailing pattern, failing when absent. -/
def dropEnd (suf s : GoString) : Option GoString :=
  match dropStart suf.reverse s.reverse with
  | none => none
  | some r => some r.reverse

/-- Split an elements payload on ',' and strip the single space following
each comma (the trivial reader's inverse of joining with ", "). -/
def splitElems (s : GoString) : List GoString :=
  match splitChar ',' s with
  | [] => []
  | x :: xs => x :: xs.map (fun y =>
      match y with
      | ' ' :: r => r
      | r => r)

/-- A trivial line-oriented reader for one set block, for C9: recover the
country code from the `set` line, the address-family token from the
`type` line, and the element list from the `elements` line. -/
def parseSetBlock (lines : List GoString) :
    Option (GoString × GoString × List GoString) :=
  match lines with
  | [l0, l1, l2, l3, l4] =>
      match dropStart ("    set ".toList) l0 with
      | none => none
      | some r0 =>
          match dropEnd (" \x7b".toList) r0 with
          | none => none
          | some code =>
              match dropStart ("        type ".toList) l1 with
              | none => none
              | some fam =>
                  if l2 = "        flags interval".toList ∧
                      l4 = "    \x7d".toList then
                    match dropStart ("        elements = \x7b ".toList) l3 with
                    | none => none
                    | some r3 =>
                        match dropEnd (" \x7d".toList) r3 with
                        | none => none
                        | some inner =>
                            some (code, fam,
                              if inner = [] then [] else splitElems inner)
                  else none
  | _ => none

/-- A file-system behaviour oracle: which directory creations and file
opens succeed, and whether content writes succeed. `writeOk` models the
error results of the `fmt.Fprint*` calls; the source discards those
results, so no definition below consults it. -/
structure FS where
  mkdirOk : GoString → Bool
  openOk : GoString → Bool
  writeOk : Bool

/-- A fatal file-system error surfaced by the generator. -/
inductive FsErr where
  | mkdirErr (path : GoString)
  | openErr (path : GoString)
deriving DecidableEq

/-- `writeNFTSet`'s error result (main.go:272-289): the source ignores
every `fmt.Fprint*` error value and returns nil unconditionally. -/
def writeNFTSetRun (_fs : FS) : Option FsErr := none

/-- The country loop of `generateGlobalFile` (main.go:212-221), error
behaviour: a `writeNFTSet` error aborts; zero-prefix codes are skipped. -/
def globalLoopRun (fs : FS) (m : PfxMap) : List GoString → Option FsErr
  | [] => none
  | code :: rest =>
      if (mapGet m code).length = 0 then globalLoopRun fs m rest
      else
        match writeNFTSetRun fs with
        | some e => some e
        | none => globalLoopRun fs m rest

/-- `generateGlobalFile` (main.go:195-226), error behaviour: a failed
open aborts; the header, set-block and closing writes have their error
results discarded. -/
def generateGlobalFileRun (fs : FS) (m : PfxMap) (filename : GoString) :
    Option FsErr :=
  if fs.openOk filename = false then some (.openErr filename)
  else globalLoopRun fs m (sortStrings (mapKeys m))

/-- `generateCountryFile` (main.go:244-270), error behaviour: an empty
bucket writes nothing; a failed mkdir or open aborts; content writes have
their error results discarded. -/
def generateCountryFileRun (fs : FS) (code : GoString) (pfxs : List IpPfx)
    (ipType : GoString) : Option FsErr :=
  if pfxs.length = 0 then none
  else if fs.mkdirOk (countryDir code) = false then
    some (.mkdirErr (countryDir code))
  else if fs.openOk (countryFileName code ipType) = false then
    some (.openErr (countryFileName code ipType))
  else
    match writeNFTSetRun fs with
    | some e => some e
    | none => none

/-- One bucket's loop of `generateCountryFiles` (main.go:229-239), error
behaviour: the first failing per-country file aborts. -/
def countryLoopRun (fs : FS) (m : PfxMap) (ipType : GoString) :
    List GoString → Option FsErr
  | [] => none
  | code :: rest =>
      match generateCountryFileRun fs code (mapGet m code) ipType with
      | some e => some e
      | none => countryLoopRun fs m ipType rest

/-- `generateAllFiles` (main.go:172-193), error behaviour: mkdir of
`by_country`, then the two global files, then the per-country files; the
first error aborts the run. -/
def generateAllFilesRun (fs : FS) (st : GeoState) : Option FsErr :=
  if fs.mkdirOk ("by_country".toList) = false then
    some (.mkdirErr ("by_country".toList))
  else
    match generateGlobalFileRun fs st.ipv4 ("geoip_ipv4.nft".toList) with
    | some e => some e
    | none =>
        match generateGlobalFileRun fs st.ipv6 ("geoip_ipv6.nft".toList) with
        | some e => some e
        | none =>
            match countryLoopRun fs st.ipv4 ("ipv4".toList) (mapKeys st.ipv4) with
            | some e => some e
            | none => countryLoopRun fs st.ipv6 ("ipv6".toList) (mapKeys st.ipv6)

/-- From the claim's words, for C7: every directory creation and file
open the run attempts succeeds. Write success is deliberately absent:
the source never checks it. -/
def fsAllOk (fs : FS) (st : GeoState) : Bool :=
  fs.mkdirOk ("by_country".toList) &&
  fs.openOk ("geoip_ipv4.nft".toList) && fs.openOk ("geoip_ipv6.nft".toList) &&
  (mapKeys st.ipv4).all (fun code =>
    ((mapGet st.ipv4 code).length == 0) ||
      (fs.mkdirOk (countryDir code) &&
        fs.openOk (countryFileName code ("ipv4".toList)))) &&
  (mapKeys st.ipv6).all (fun code =>
    ((mapGet st.ipv6 code).length == 0) ||
      (fs.mkdirOk (countryDir code) &&
        fs.openOk (countryFileName code ("ipv6".toList))))

end MaxmindToNft

namespace MaxmindToNft

lemma upperAZ_utf8Len {c : Char} (_h1 : 'A' ≤ c) (h2 : c ≤ 'Z') :
    charUtf8Len c = 1 := by
  have hv : c.toNat ≤ 90 := h2
  simp only [charUtf8Len]
  rw [if_pos]
  omega

lemma upperAZ_toUpper {c : Char} (_h1 : 'A' ≤ c) (h2 : c ≤ 'Z') :
    goToUpperChar c = c := by
  have hv : c.toNat ≤ 90 := h2
  simp only [goToUpperChar]
  rw [if_neg]
  intro hcon
  have : 97 ≤ c.toNat := hcon.1
  omega

lemma isAlphaOnly_iff (s : GoString) :
    isAlphaOnly s = true ↔ ∀ c ∈ s, 'A' ≤ c ∧ c ≤ 'Z' := by
  simp only [isAlphaOnly, List.all_eq_true, Bool.not_eq_true', Bool.or_eq_false_iff,
    decide_eq_false_iff_not, not_lt]

lemma isAlphaOnly_goLen {s : GoString} (h : isAlphaOnly s = true) :
    goLen s = s.length := by
  rw [isAlphaOnly_iff] at h
  induction s with
  | nil => rfl
  | cons c t ih =>
      have hc := h c (List.mem_cons_self c t)
      have ht : goLen t = t.length := ih (fun x hx => h x (List.mem_cons_of_mem c hx))
      simp only [goLen, List.map_cons, List.sum_cons, List.length_cons] at *
      rw [upperAZ_utf8Len hc.1 hc.2, ht]
      omega

lemma isAlphaOnly_toUpper {s : GoString} (h : isAlphaOnly s = true) :
    goToUpper s = s := by
  rw [isAlphaOnly_iff] at h
  induction s with
  | nil => rfl
  | cons c t ih =>
      have hc := h c (List.mem_cons_self c t)
      have ht := ih (fun x hx => h x (List.mem_cons_of_mem c hx))
      simp only [goToUpper, List.map_cons] at *
      rw [upperAZ_toUpper hc.1 hc.2, ht]

lemma isValidCountryCode_shape (s : GoString) :
    isValidCountryCode s = true ↔
      ∃ a b, s = [a, b] ∧ ('A' ≤ a ∧ a ≤ 'Z') ∧ ('A' ≤ b ∧ b ≤ 'Z') := by
  constructor
  · intro h
    simp only [isValidCountryCode, Bool.and_eq_true, beq_iff_eq, Nat.beq_eq] at h
    obtain ⟨⟨hlen, _⟩, halpha⟩ := h
    have hl2 : s.length = 2 := by rw [← isAlphaOnly_goLen halpha]; exact hlen
    rw [isAlphaOnly_iff] at halpha
    match s, hl2 with
    | [a, b], _ =>
        exact ⟨a, b, rfl, halpha a (by simp), halpha b (by simp)⟩
  · rintro ⟨a, b, rfl, ha, hb⟩
    have halpha : isAlphaOnly [a, b] = true := by
      rw [isAlphaOnly_iff]
      intro c hc
      rcases List.mem_cons.mp hc with rfl | hc2
      · exact ha
      rcases List.mem_cons.mp hc2 with rfl | hc3
      · exact hb
      exact absurd hc3 (List.not_mem_nil c)
    simp only [isValidCountryCode, Bool.and_eq_true, beq_iff_eq, Nat.beq_eq]
    refine ⟨⟨?_, ?_⟩, halpha⟩
    · rw [isAlphaOnly_goLen halpha]; rfl
    · rw [isAlphaOnly_toUpper halpha]

/-- C5: the country-code validator accepts exactly the strings of two
uppercase ASCII letters (the regex `^[A-Z]{2}$`), rejecting every other
string (empty, lowercase, wrong length, non-alphabetic, mixed case). -/
theorem isValidCountryCode_iff_upper_two (s : GoString) :
    isValidCountryCode s = true ↔
      ∃ a b, s = [a, b] ∧ ('A' ≤ a ∧ a ≤ 'Z') ∧ ('A' ≤ b ∧ b ≤ 'Z') :=
  isValidCountryCode_shape s

/-- Witness for C5 at concrete inputs: "US" is accepted, and its shape. -/
theorem isValidCountryCode_iff_upper_two_witness :
    ∃ a b, (['U', 'S'] : GoString) = [a, b] ∧
      ('A' ≤ a ∧ a ≤ 'Z') ∧ ('A' ≤ b ∧ b ≤ 'Z') :=
  (isValidCountryCode_iff_upper_two ['U', 'S']).mp (by decide)

lemma splitChar_ne_nil (sep : Char) (s : List Char) : splitChar sep s ≠ [] := by
  cases s with
  | nil => simp [splitChar]
  | cons c rest =>
      by_cases hc : c = sep
      · simp [splitChar, hc]
      · simp only [splitChar, if_neg hc]
        rcases h : splitChar sep rest with _ | ⟨p, ps⟩ <;> simp

/-- A ".." substring of a string is a ".." substring of one of its
'/'-separated segments (a separator is never a dot, so the two dots lie in
one segment). -/
lemma strContainsDotDot_splitChar (s : List Char) :
    strContainsDotDot s = (splitChar '/' s).any strContainsDotDot := by
  induction s with
  | nil => rfl
  | cons c rest ih =>
      by_cases hc : c = '/'
      · subst hc
        have h1 : splitChar '/' ('/' :: rest) = [] :: splitChar '/' rest := by
          simp [splitChar]
        rw [h1, List.any_cons]
        cases rest with
        | nil => decide
        | cons d r2 =>
            have h2 : strContainsDotDot ('/' :: d :: r2) = strContainsDotDot (d :: r2) := by
              show (if ('/' : Char) = '.' ∧ d = '.' then true
                else strContainsDotDot (d :: r2)) = strContainsDotDot (d :: r2)
              rw [if_neg]
              rintro ⟨h, -⟩
              exact absurd h (by decide)
            rw [h2, ih]
            simp [strContainsDotDot]
      · rcases hsp : splitChar '/' rest with _ | ⟨p, ps⟩
        · exact absurd hsp (splitChar_ne_nil '/' rest)
        have h1 : splitChar '/' (c :: rest) = (c :: p) :: ps := by
          simp only [splitChar, if_neg hc, hsp]
        rw [h1, List.any_cons]
        rw [hsp, List.any_cons] at ih
        cases rest with
        | nil =>
            simp only [splitChar] at hsp
            cases hsp
            simp [strContainsDotDot]
        | cons d r2 =>
            by_cases hd : d = '/'
            · subst hd
              simp only [splitChar, if_pos rfl] at hsp
              cases hsp
              have h2 : strContainsDotDot (c :: '/' :: r2) =
                  strContainsDotDot ('/' :: r2) := by
                show (if c = '.' ∧ ('/' : Char) = '.' then true
                  else strContainsDotDot ('/' :: r2)) = strContainsDotDot ('/' :: r2)
                rw [if_neg]
                rintro ⟨-, h⟩
                exact absurd h (by decide)
              rw [h2, ih]
              simp [strContainsDotDot]
            · rcases hsp2 : splitChar '/' r2 with _ | ⟨q, qs⟩
              · exact absurd hsp2 (splitChar_ne_nil '/' r2)
              simp only [splitChar, if_neg hd, hsp2] at hsp
              cases hsp
              by_cases hcd : c = '.' ∧ d = '.'
              · simp [strContainsDotDot, if_pos hcd]
              · have h2 : strContainsDotDot (c :: d :: r2) =
                    strContainsDotDot (d :: r2) := by
                  simp only [strContainsDotDot, if_neg hcd]
                have h3 : strContainsDotDot (c :: d :: q) =
                    strContainsDotDot (d :: q) := by
                  simp only [strContainsDotDot, if_neg hcd]
                rw [h2, h3, ih]

lemma filepathClean_rooted {p : GoString} (h : startsWithChar '/' p = true) :
    startsWithChar '/' (filepathClean p) = true := by
  have hne : p ≠ [] := by
    intro hnil
    rw [hnil] at h
    exact absurd h (by decide)
  simp only [filepathClean, if_neg hne, h, if_pos]
  rfl

/-- C3 counterexample: "a/b/.." has a `..` segment (the claim says reject)
yet `isValidTarPath` accepts it, because `Clean` resolves the segment
away; and "a..b" is a relative traversal-free path (the claim says accept)
yet `isValidTarPath` rejects it, because the substring test sees the ".."
inside the file name. -/
theorem isValidTarPath_claim_counterexample :
    (specHasDotDotSegment ("a/b/..".toList) = true ∧
      isValidTarPath ("a/b/..".toList) = true) ∧
    (specRelativeTraversalFree ("a..b".toList) = true ∧
      isValidTarPath ("a..b".toList) = false) := by
  decide

/-- C3 amended: the path-safety check accepts a path exactly when its
`filepath.Clean`-ed form contains no ".." substring in any '/'-separated
segment (even inside an ordinary file name) and does not begin with '/' or
'\\'; moreover a path with a leading separator is always rejected, and
rejected entries are merely skipped by the extraction loop (see
`extractMMDBFromTar`). -/
theorem isValidTarPath_iff_clean_safe (p : GoString) :
    (isValidTarPath p = true ↔
      (∀ seg ∈ splitChar '/' (filepathClean p), strContainsDotDot seg = false) ∧
      startsWithChar '/' (filepathClean p) = false ∧
      startsWithChar '\\' (filepathClean p) = false) ∧
    (startsWithChar '/' p = true → isValidTarPath p = false) := by
  constructor
  · have hrw : strContainsDotDot (filepathClean p) =
        ((splitChar '/' (filepathClean p)).any strContainsDotDot) :=
      strContainsDotDot_splitChar _
    simp only [isValidTarPath, Bool.and_eq_true, Bool.not_eq_true']
    rw [hrw]
    simp only [List.any_eq_false, Bool.not_eq_true]
    tauto
  · intro h
    have hr := filepathClean_rooted h
    simp [isValidTarPath, hr]

/-- Witness for C3's amended theorem at concrete inputs: "x/mm.mmdb" is
accepted and satisfies the cleaned-path characterization, and the rooted
path "/x" is rejected. -/
theorem isValidTarPath_iff_clean_safe_witness :
    ((∀ seg ∈ splitChar '/' (filepathClean ("x/mm.mmdb".toList)),
        strContainsDotDot seg = false) ∧
      startsWithChar '/' (filepathClean ("x/mm.mmdb".toList)) = false ∧
      startsWithChar '\\' (filepathClean ("x/mm.mmdb".toList)) = false) ∧
    isValidTarPath ("/x".toList) = false :=
  ⟨(isValidTarPath_iff_clean_safe ("x/mm.mmdb".toList)).1.mp (by decide),
   (isValidTarPath_iff_clean_safe ("/x".toList)).2 (by decide)⟩

lemma extractMMDBFromTar_skip {x : TarEntry} (hx : qualifiesMMDB x = false)
    (l : List TarEntry) :
    extractMMDBFromTar (x :: l) = extractMMDBFromTar l := by
  simp only [qualifiesMMDB, Bool.and_eq_false_iff] at hx
  cases hv : isValidTarPath x.name with
  | false => simp [extractMMDBFromTar, hv]
  | true =>
      rcases hx with hx | hx
      · rw [hv] at hx; cases hx
      · simp [extractMMDBFromTar, hv, hx]

/-- C4: extraction returns exactly the declared bytes of the first
path-safe ".mmdb" entry, whatever entries follow (they are never visited,
qualifying or not), and fails with the distinct not-found error when the
stream has no qualifying entry at all. -/
theorem extractMMDBFromTar_first_match (pre : List TarEntry) (e : TarEntry)
    (hpre : ∀ x ∈ pre, qualifiesMMDB x = false)
    (he : qualifiesMMDB e = true) (hsz : e.size ≤ maxDownloadSize)
    (hlen : e.content.length = e.size) :
    (∀ post, extractMMDBFromTar (pre ++ e :: post) = .ok e.content) ∧
    (∀ l : List TarEntry, (∀ x ∈ l, qualifiesMMDB x = false) →
      extractMMDBFromTar l = .notFound) := by
  constructor
  · intro post
    induction pre with
    | nil =>
        simp only [qualifiesMMDB, Bool.and_eq_true] at he
        simp only [List.nil_append, extractMMDBFromTar, he.1, he.2, Bool.not_true,
          Bool.false_eq_true, if_false, if_true]
        rw [if_neg (by omega), ← hlen, List.take_length]
    | cons x xs ih =>
        have hx := hpre x (List.mem_cons_self x xs)
        have ih2 := ih (fun y hy => hpre y (List.mem_cons_of_mem x hy))
        rw [List.cons_append, extractMMDBFromTar_skip hx, ih2]
  · intro l hl
    induction l with
    | nil => rfl
    | cons x xs ih =>
        rw [extractMMDBFromTar_skip (hl x (List.mem_cons_self x xs))]
        exact ih (fun y hy => hl y (List.mem_cons_of_mem x hy))

/-- Witness for C4: the spec's synthetic archive — a safe "x/foo.mmdb"
entry followed by a traversal entry "../evil.mmdb" — yields the first
entry's bytes, with the second never visited. -/
theorem extractMMDBFromTar_first_match_witness :
    extractMMDBFromTar [⟨"x/foo.mmdb".toList, 3, [1, 2, 3]⟩,
      ⟨"../evil.mmdb".toList, 4, [9, 9, 9, 9]⟩] = .ok [1, 2, 3] :=
  (extractMMDBFromTar_first_match [] ⟨"x/foo.mmdb".toList, 3, [1, 2, 3]⟩
      (by simp) (by decide) (by decide) (by decide)).1
    [⟨"../evil.mmdb".toList, 4, [9, 9, 9, 9]⟩]

/-- C8: a qualifying entry whose declared size exceeds the configured
ceiling makes extraction fail with the size error, and the result is the
same for every possible content of that entry — no content byte is
consulted before failing. -/
theorem extractMMDBFromTar_oversize (pre : List TarEntry) (nm : GoString) (sz : Nat)
    (hpre : ∀ x ∈ pre, qualifiesMMDB x = false)
    (hv : isValidTarPath nm = true) (hs : strEndsWith mmdbSuffix nm = true)
    (hgt : sz > maxDownloadSize) :
    ∀ content post,
      extractMMDBFromTar (pre ++ (⟨nm, sz, content⟩ : TarEntry) :: post) =
        .tooLarge sz := by
  intro content post
  induction pre with
  | nil =>
      simp only [List.nil_append, extractMMDBFromTar, hv, hs, Bool.not_true,
        Bool.false_eq_true, if_false, if_true]
      rw [if_pos hgt]
  | cons x xs ih =>
      have hx := hpre x (List.mem_cons_self x xs)
      have ih2 := ih (fun y hy => hpre y (List.mem_cons_of_mem x hy))
      rw [List.cons_append, extractMMDBFromTar_skip hx, ih2]

/-- Witness for C8: an oversized "big.mmdb" entry (one byte past the 1024
MB ceiling) fails with the size error for two different contents. -/
theorem extractMMDBFromTar_oversize_witness :
    extractMMDBFromTar [⟨"big.mmdb".toList, 1073741825, []⟩] = .tooLarge 1073741825 ∧
    extractMMDBFromTar [⟨"big.mmdb".toList, 1073741825, [7]⟩] = .tooLarge 1073741825 :=
  ⟨extractMMDBFromTar_oversize [] ("big.mmdb".toList) 1073741825
      (by simp) (by decide) (by decide) (by decide) [] [],
   extractMMDBFromTar_oversize [] ("big.mmdb".toList) 1073741825
      (by simp) (by decide) (by decide) (by decide) [7] []⟩

lemma mapGet_mapAppend_self (m : PfxMap) (code : GoString) (p : IpPfx) :
    mapGet (mapAppend m code p) code = mapGet m code ++ [p] := by
  induction m with
  | nil => simp [mapAppend, mapGet]
  | cons kv rest ih =>
      obtain ⟨k, v⟩ := kv
      by_cases hk : k = code
      · simp [mapAppend, mapGet, hk]
      · simp [mapAppend, mapGet, hk, ih]

lemma mapGet_mapAppend_ne (m : PfxMap) (code c : GoString) (p : IpPfx)
    (h : c ≠ code) :
    mapGet (mapAppend m code p) c = mapGet m c := by
  induction m with
  | nil =>
      have hne : ¬code = c := fun hc => h hc.symm
      simp [mapAppend, mapGet, hne]
  | cons kv rest ih =>
      obtain ⟨k, v⟩ := kv
      by_cases hk : k = code
      · subst hk
        have hne : ¬k = c := fun hc => h hc.symm
        simp [mapAppend, mapGet, hne]
      · simp only [mapAppend, if_neg hk, mapGet]
        by_cases hkc : k = c
        · simp [hkc]
        · simp [hkc, ih]

lemma specYieldedPfxs_cons_skip {r : NetResult} {code : GoString} {w : Bool}
    (h : ∀ record, r.decoded = some record →
      ¬(record.isoCode = code ∧ record.isoCode ≠ [] ∧
        isValidCountryCode record.isoCode = true ∧ r.pfx.addr.is4 = w))
    (rs : List NetResult) :
    specYieldedPfxs (r :: rs) code w = specYieldedPfxs rs code w := by
  rcases hr : r.decoded with _ | record
  · simp only [specYieldedPfxs, List.filterMap_cons, hr]
  · simp only [specYieldedPfxs, List.filterMap_cons, hr]
    rw [if_neg (h record hr)]

lemma specYieldedPfxs_cons_take {r : NetResult} {record : CountryRecord}
    {code : GoString} {w : Bool} (hr : r.decoded = some record)
    (h : record.isoCode = code ∧ record.isoCode ≠ [] ∧
      isValidCountryCode record.isoCode = true ∧ r.pfx.addr.is4 = w)
    (rs : List NetResult) :
    specYieldedPfxs (r :: rs) code w = r.pfx :: specYieldedPfxs rs code w := by
  simp only [specYieldedPfxs, List.filterMap_cons, hr]
  rw [if_pos h]

lemma loadGeoIPData_aux (results : List NetResult) (st : GeoState) (code : GoString) :
    mapGet ((results.foldl loadStep st).ipv4) code =
      mapGet st.ipv4 code ++ specYieldedPfxs results code true ∧
    mapGet ((results.foldl loadStep st).ipv6) code =
      mapGet st.ipv6 code ++ specYieldedPfxs results code false := by
  induction results generalizing st with
  | nil => simp [specYieldedPfxs]
  | cons r rs ih =>
      rw [List.foldl_cons]
      obtain ⟨ih4, ih6⟩ := ih (loadStep st r)
      rcases hr : r.decoded with _ | record
      · have hstep : loadStep st r = st := by simp [loadStep, hr]
        rw [hstep] at ih4 ih6 ⊢
        have hskip : ∀ w : Bool,
            specYieldedPfxs (r :: rs) code w = specYieldedPfxs rs code w :=
          fun w => specYieldedPfxs_cons_skip
            (fun record hrec => absurd (hr ▸ hrec) (by simp)) rs
        exact ⟨by rw [hskip true]; exact ih4, by rw [hskip false]; exact ih6⟩
      · by_cases hbad : record.isoCode = [] ∨ isValidCountryCode record.isoCode = false
        · have hstep : loadStep st r = st := by
            simp only [loadStep, hr]
            rw [if_pos hbad]
          rw [hstep] at ih4 ih6 ⊢
          have hskip : ∀ w : Bool,
              specYieldedPfxs (r :: rs) code w = specYieldedPfxs rs code w := by
            intro w
            refine specYieldedPfxs_cons_skip (fun record2 hrec => ?_) rs
            rw [hr] at hrec
            cases hrec
            rintro ⟨-, hne, hval, -⟩
            rcases hbad with hbad | hbad
            · exact hne hbad
            · rw [hval] at hbad; cases hbad
          exact ⟨by rw [hskip true]; exact ih4, by rw [hskip false]; exact ih6⟩
        · push_neg at hbad
          obtain ⟨hne, hval⟩ := hbad
          have hval2 : isValidCountryCode record.isoCode = true :=
            eq_true_of_ne_false hval
          cases his : r.pfx.addr.is4 with
          | true =>
              have hstep : loadStep st r =
                  { st with ipv4 := mapAppend st.ipv4 record.isoCode r.pfx } := by
                simp only [loadStep, hr, his]
                rw [if_neg (by push_neg; exact ⟨hne, hval⟩)]
                simp
              rw [hstep] at ih4 ih6 ⊢
              have hskip6 : specYieldedPfxs (r :: rs) code false =
                  specYieldedPfxs rs code false := by
                refine specYieldedPfxs_cons_skip (fun record2 hrec => ?_) rs
                rw [hr] at hrec
                cases hrec
                rintro ⟨-, -, -, h4⟩
                rw [his] at h4
                cases h4
              refine ⟨?_, by rw [hskip6]; exact ih6⟩
              by_cases hcode : record.isoCode = code
              · subst hcode
                rw [specYieldedPfxs_cons_take hr ⟨rfl, hne, hval2, his⟩ rs]
                rw [ih4, mapGet_mapAppend_self]
                simp
              · rw [specYieldedPfxs_cons_skip
                    (fun record2 hrec => by
                      rw [hr] at hrec
                      cases hrec
                      rintro ⟨hc, -, -, -⟩
                      exact hcode hc) rs]
                rw [ih4, mapGet_mapAppend_ne _ _ _ _ (fun hc => hcode hc.symm)]
          | false =>
              have hstep : loadStep st r =
                  { st with ipv6 := mapAppend st.ipv6 record.isoCode r.pfx } := by
                simp only [loadStep, hr, his]
                rw [if_neg (by push_neg; exact ⟨hne, hval⟩)]
                simp
              rw [hstep] at ih4 ih6 ⊢
              have hskip4 : specYieldedPfxs (r :: rs) code true =
                  specYieldedPfxs rs code true := by
                refine specYieldedPfxs_cons_skip (fun record2 hrec => ?_) rs
                rw [hr] at hrec
                cases hrec
                rintro ⟨-, -, -, h4⟩
                rw [his] at h4
                cases h4
              refine ⟨by rw [hskip4]; exact ih4, ?_⟩
              by_cases hcode : record.isoCode = code
              · subst hcode
                rw [specYieldedPfxs_cons_take hr ⟨rfl, hne, hval2, his⟩ rs]
                rw [ih6, mapGet_mapAppend_self]
                simp
              · rw [specYieldedPfxs_cons_skip
                    (fun record2 hrec => by
                      rw [hr] at hrec
                      cases hrec
                      rintro ⟨hc, -, -, -⟩
                      exact hcode hc) rs]
                rw [ih6, mapGet_mapAppend_ne _ _ _ _ (fun hc => hcode hc.symm)]

/-- C1: for every decoder yield sequence and every country code, the IPv4
bucket under that code holds exactly the prefixes of the successfully
decoded yields carrying that code (nonempty and passing validation) whose
address is a 4-byte address, and the IPv6 bucket those whose address is
not, both in yield order, with no deduplication and no sorting. -/
theorem loadGeoIPData_buckets (results : List NetResult) (code : GoString) :
    mapGet (loadGeoIPData results).ipv4 code = specYieldedPfxs results code true ∧
    mapGet (loadGeoIPData results).ipv6 code = specYieldedPfxs results code false := by
  have h := loadGeoIPData_aux results { ipv4 := [], ipv6 := [] } code
  simpa [loadGeoIPData, mapGet] using h

lemma goStrLe_total (a b : GoString) : goStrLe a b = true ∨ goStrLe b a = true := by
  induction a generalizing b with
  | nil => exact Or.inl rfl
  | cons x xs ih =>
      cases b with
      | nil => exact Or.inr rfl
      | cons y ys =>
          by_cases hxy : x = y
          · subst hxy
            simp only [goStrLe, if_pos rfl]
            exact ih ys
          · simp only [goStrLe, if_neg hxy, if_neg (fun h : y = x => hxy h.symm)]
            rcases lt_or_gt_of_ne hxy with h | h
            · exact Or.inl (decide_eq_true h)
            · exact Or.inr (decide_eq_true h)

lemma goStrLe_trans {a : GoString} : ∀ {b c : GoString}, goStrLe a b = true →
    goStrLe b c = true → goStrLe a c = true := by
  induction a with
  | nil => intro b c _ _; rfl
  | cons x xs ih =>
      intro b c h1 h2
      cases b with
      | nil => simp [goStrLe] at h1
      | cons y ys =>
          cases c with
          | nil => simp [goStrLe] at h2
          | cons z zs =>
              simp only [goStrLe] at h1 h2 ⊢
              by_cases hxy : x = y
              · subst hxy
                rw [if_pos rfl] at h1
                by_cases hxz : x = z
                · subst hxz
                  rw [if_pos rfl] at h2 ⊢
                  exact ih h1 h2
                · rw [if_neg hxz] at h2 ⊢
                  exact h2
              · rw [if_neg hxy] at h1
                have hlt1 : x < y := of_decide_eq_true h1
                by_cases hyz : y = z
                · subst hyz
                  rw [if_neg hxy]
                  exact decide_eq_true hlt1
                · rw [if_neg hyz] at h2
                  have hlt2 : y < z := of_decide_eq_true h2
                  have hlt : x < z := lt_trans hlt1 hlt2
                  rw [if_neg (fun h : x = z => absurd (h ▸ hlt) (lt_irrefl z))]
                  exact decide_eq_true hlt

lemma insertSorted_perm (x : GoString) (l : List GoString) :
    (insertSorted x l).Perm (x :: l) := by
  induction l with
  | nil => exact List.Perm.refl _
  | cons y ys ih =>
      by_cases h : goStrLe x y = true
      · simp only [insertSorted, if_pos h]
        exact List.Perm.refl _
      · simp only [insertSorted, if_neg h]
        exact (ih.cons y).trans (List.Perm.swap x y ys)

lemma insertSorted_mem (x : GoString) (l : List GoString) (c : GoString) :
    c ∈ insertSorted x l ↔ c = x ∨ c ∈ l := by
  rw [(insertSorted_perm x l).mem_iff, List.mem_cons]

lemma insertSorted_pairwise {l : List GoString}
    (hl : l.Pairwise (fun a b => goStrLe a b = true)) (x : GoString) :
    (insertSorted x l).Pairwise (fun a b => goStrLe a b = true) := by
  induction l with
  | nil => simp [insertSorted]
  | cons y ys ih =>
      rw [List.pairwise_cons] at hl
      obtain ⟨hy, hys⟩ := hl
      by_cases h : goStrLe x y = true
      · simp only [insertSorted, if_pos h]
        refine List.pairwise_cons.mpr ⟨?_, List.pairwise_cons.mpr ⟨hy, hys⟩⟩
        intro b hb
        rcases List.mem_cons.mp hb with rfl | hb2
        · exact h
        · exact goStrLe_trans h (hy b hb2)
      · simp only [insertSorted, if_neg h]
        refine List.pairwise_cons.mpr ⟨?_, ih hys⟩
        intro b hb
        rcases (insertSorted_mem x ys b).mp hb with rfl | hb2
        · rcases goStrLe_total b y with h2 | h2
          · exact absurd h2 h
          · exact h2
        · exact hy b hb2

lemma sortStrings_perm (l : List GoString) : (sortStrings l).Perm l := by
  induction l with
  | nil => exact List.Perm.refl _
  | cons x xs ih =>
      exact (insertSorted_perm x (sortStrings xs)).trans (ih.cons x)

lemma sortStrings_pairwise (l : List GoString) :
    (sortStrings l).Pairwise (fun a b => goStrLe a b = true) := by
  induction l with
  | nil => exact List.Pairwise.nil
  | cons x xs ih => exact insertSorted_pairwise ih x

lemma flatten_map_if (m : PfxMap) (ipType : GoString) (l : List GoString) :
    (l.map (fun code =>
      if (mapGet m code).length = 0 then []
      else writeNFTSet code (mapGet m code) ipType)).flatten =
    ((l.filter (fun code => !((mapGet m code).length == 0))).map (fun code =>
      writeNFTSet code (mapGet m code) ipType)).flatten := by
  induction l with
  | nil => rfl
  | cons c cs ih =>
      by_cases h : (mapGet m c).length = 0
      · have h2 : (!((mapGet m c).length == 0)) = false := by rw [h]; rfl
        rw [List.map_cons, List.flatten_cons, if_pos h, List.filter_cons, h2,
          List.nil_append, ih]
        rw [if_neg (fun hh => Bool.false_ne_true hh)]
      · have h2 : (!((mapGet m c).length == 0)) = true := by
          rcases Nat.exists_eq_succ_of_ne_zero h with ⟨k, hk⟩
          rw [hk]
          rfl
        rw [List.map_cons, List.flatten_cons, if_neg h, List.filter_cons, h2,
          if_pos rfl, List.map_cons, List.flatten_cons, ih]

/-- C2: the global per-family file is exactly two header lines, then one
set block per country code present in the bucket, the codes enumerated in
ascending lexicographic order with zero-prefix codes skipped (and
pairwise distinct given distinct keys), then the single closing brace
line. -/
theorem generateGlobalFile_spec (m : PfxMap) (ipType : GoString)
    (hnd : (mapKeys m).Nodup) :
    ∃ codes : List GoString,
      generateGlobalFile m ipType =
        headerLines ++
          (codes.map (fun code => writeNFTSet code (mapGet m code) ipType)).flatten ++
          [closingLine] ∧
      codes.Pairwise (fun a b => goStrLe a b = true) ∧
      codes.Nodup ∧
      (∀ c, c ∈ codes ↔ c ∈ mapKeys m ∧ mapGet m c ≠ []) := by
  refine ⟨(sortStrings (mapKeys m)).filter (fun code => !((mapGet m code).length == 0)),
    ?_, ?_, ?_, ?_⟩
  · rw [generateGlobalFile, flatten_map_if]
  · exact (sortStrings_pairwise (mapKeys m)).filter _
  · exact (((sortStrings_perm (mapKeys m)).nodup_iff).mpr hnd).filter _
  · intro c
    rw [List.mem_filter, (sortStrings_perm (mapKeys m)).mem_iff]
    simp only [Bool.not_eq_true', beq_eq_false_iff_ne, ne_eq, List.length_eq_zero]

/-- Witness for C2 at a concrete two-country bucket: "DE" sorts before
"US" and both blocks appear. -/
theorem generateGlobalFile_spec_witness :
    ∃ codes : List GoString,
      generateGlobalFile [("US".toList, [⟨GoAddr.v4 1 2 3 0, 24⟩]),
          ("DE".toList, [⟨GoAddr.v4 9 8 7 0, 24⟩])] ("ipv4".toList) =
        headerLines ++
          (codes.map (fun code => writeNFTSet code
            (mapGet [("US".toList, [⟨GoAddr.v4 1 2 3 0, 24⟩]),
              ("DE".toList, [⟨GoAddr.v4 9 8 7 0, 24⟩])] code) ("ipv4".toList))).flatten ++
          [closingLine] ∧
      codes.Pairwise (fun a b => goStrLe a b = true) ∧
      codes.Nodup ∧
      (∀ c, c ∈ codes ↔ c ∈ mapKeys [("US".toList, [⟨GoAddr.v4 1 2 3 0, 24⟩]),
          ("DE".toList, [⟨GoAddr.v4 9 8 7 0, 24⟩])] ∧
        mapGet [("US".toList, [⟨GoAddr.v4 1 2 3 0, 24⟩]),
          ("DE".toList, [⟨GoAddr.v4 9 8 7 0, 24⟩])] c ≠ []) :=
  generateGlobalFile_spec _ _ (by decide)

lemma mapKeys_mapAppend_sub (m : PfxMap) (code : GoString) (p : IpPfx) :
    ∀ c ∈ mapKeys (mapAppend m code p), c = code ∨ c ∈ mapKeys m := by
  induction m with
  | nil =>
      intro c hc
      simp only [mapAppend, mapKeys, List.map_cons, List.map_nil] at hc
      rcases List.mem_cons.mp hc with rfl | h2
      · exact Or.inl rfl
      · exact absurd h2 (List.not_mem_nil c)
  | cons kv rest ih =>
      obtain ⟨k, v⟩ := kv
      intro c hc
      by_cases hk : k = code
      · simp only [mapAppend, if_pos hk, mapKeys, List.map_cons] at hc ⊢
        rcases List.mem_cons.mp hc with rfl | h2
        · exact Or.inr (List.mem_cons_self _ _)
        · exact Or.inr (List.mem_cons_of_mem _ h2)
      · simp only [mapAppend, if_neg hk, mapKeys, List.map_cons] at hc ⊢
        rcases List.mem_cons.mp hc with rfl | h2
        · exact Or.inr (List.mem_cons_self _ _)
        · rcases ih c h2 with h3 | h3
          · exact Or.inl h3
          · exact Or.inr (List.mem_cons_of_mem _ h3)

lemma bucketInv_mapAppend {m : PfxMap} (hm : bucketInv m) {code : GoString}
    (hv : isValidCountryCode code = true) (p : IpPfx) :
    bucketInv (mapAppend m code p) := by
  intro c hc
  by_cases hcc : c = code
  · subst hcc
    refine ⟨hv, ?_⟩
    rw [mapGet_mapAppend_self]
    simp
  · rcases mapKeys_mapAppend_sub m code p c hc with h | h
    · exact absurd h hcc
    · obtain ⟨h1, h2⟩ := hm c h
      refine ⟨h1, ?_⟩
      rw [mapGet_mapAppend_ne m code c p hcc]
      exact h2

lemma loadStep_inv {st : GeoState} (h4 : bucketInv st.ipv4) (h6 : bucketInv st.ipv6)
    (r : NetResult) :
    bucketInv (loadStep st r).ipv4 ∧ bucketInv (loadStep st r).ipv6 := by
  rcases hr : r.decoded with _ | record
  · simp only [loadStep, hr]
    exact ⟨h4, h6⟩
  · by_cases hbad : record.isoCode = [] ∨ isValidCountryCode record.isoCode = false
    · simp only [loadStep, hr]
      rw [if_pos hbad]
      exact ⟨h4, h6⟩
    · push_neg at hbad
      obtain ⟨hne, hvne⟩ := hbad
      have hv : isValidCountryCode record.isoCode = true := eq_true_of_ne_false hvne
      cases his : r.pfx.addr.is4 with
      | true =>
          have hstep : loadStep st r =
              { st with ipv4 := mapAppend st.ipv4 record.isoCode r.pfx } := by
            simp only [loadStep, hr, his]
            rw [if_neg (by push_neg; exact ⟨hne, hvne⟩)]
            simp
          rw [hstep]
          exact ⟨bucketInv_mapAppend h4 hv r.pfx, h6⟩
      | false =>
          have hstep : loadStep st r =
              { st with ipv6 := mapAppend st.ipv6 record.isoCode r.pfx } := by
            simp only [loadStep, hr, his]
            rw [if_neg (by push_neg; exact ⟨hne, hvne⟩)]
            simp
          rw [hstep]
          exact ⟨h4, bucketInv_mapAppend h6 hv r.pfx⟩

lemma loadGeoIPData_inv_aux (results : List NetResult) (st : GeoState)
    (h4 : bucketInv st.ipv4) (h6 : bucketInv st.ipv6) :
    bucketInv ((results.foldl loadStep st).ipv4) ∧
    bucketInv ((results.foldl loadStep st).ipv6) := by
  induction results generalizing st with
  | nil => exact ⟨h4, h6⟩
  | cons r rs ih =>
      rw [List.foldl_cons]
      obtain ⟨g4, g6⟩ := loadStep_inv h4 h6 r
      exact ih (loadStep st r) g4 g6

/-- C10: after aggregation, every key of either bucket is a valid
two-uppercase-letter country code and every stored prefix list is
nonempty; consequently the writers' defensive zero-prefix skip never
fires — filtering the sorted keys by nonemptiness keeps every key. -/
theorem loadGeoIPData_invariant (results : List NetResult) :
    bucketInv (loadGeoIPData results).ipv4 ∧
    bucketInv (loadGeoIPData results).ipv6 ∧
    (sortStrings (mapKeys (loadGeoIPData results).ipv4)).filter
        (fun code => !((mapGet (loadGeoIPData results).ipv4 code).length == 0)) =
      sortStrings (mapKeys (loadGeoIPData results).ipv4) ∧
    (sortStrings (mapKeys (loadGeoIPData results).ipv6)).filter
        (fun code => !((mapGet (loadGeoIPData results).ipv6 code).length == 0)) =
      sortStrings (mapKeys (loadGeoIPData results).ipv6) := by
  obtain ⟨h4, h6⟩ := loadGeoIPData_inv_aux results { ipv4 := [], ipv6 := [] }
    (fun c hc => absurd hc (List.not_mem_nil c))
    (fun c hc => absurd hc (List.not_mem_nil c))
  refine ⟨h4, h6, ?_, ?_⟩
  · rw [List.filter_eq_self]
    intro c hc
    have hmem : c ∈ mapKeys (loadGeoIPData results).ipv4 :=
      (sortStrings_perm _).mem_iff.mp hc
    have hne := (h4 c hmem).2
    have hlen : (mapGet (loadGeoIPData results).ipv4 c).length ≠ 0 := by
      intro h0
      exact hne (List.length_eq_zero.mp h0)
    rcases Nat.exists_eq_succ_of_ne_zero hlen with ⟨k, hk⟩
    show (!((mapGet (loadGeoIPData results).ipv4 c).length == 0)) = true
    rw [hk]
    rfl
  · rw [List.filter_eq_self]
    intro c hc
    have hmem : c ∈ mapKeys (loadGeoIPData results).ipv6 :=
      (sortStrings_perm _).mem_iff.mp hc
    have hne := (h6 c hmem).2
    have hlen : (mapGet (loadGeoIPData results).ipv6 c).length ≠ 0 := by
      intro h0
      exact hne (List.length_eq_zero.mp h0)
    rcases Nat.exists_eq_succ_of_ne_zero hlen with ⟨k, hk⟩
    show (!((mapGet (loadGeoIPData results).ipv6 c).length == 0)) = true
    rw [hk]
    rfl

/-- Witness for C10: a one-yield run puts "US" in the IPv4 bucket; the
invariant theorem applied there gives validity and nonemptiness. -/
theorem loadGeoIPData_invariant_witness :
    isValidCountryCode ("US".toList) = true ∧
      mapGet (loadGeoIPData [⟨⟨GoAddr.v4 1 2 3 0, 24⟩, some ⟨"US".toList⟩⟩]).ipv4
        ("US".toList) ≠ [] :=
  (loadGeoIPData_invariant [⟨⟨GoAddr.v4 1 2 3 0, 24⟩, some ⟨"US".toList⟩⟩]).1
    ("US".toList) (by decide)

lemma splitChar_eq_single {sep : Char} {x : List Char} (h : ∀ c ∈ x, c ≠ sep) :
    splitChar sep x = [x] := by
  induction x with
  | nil => rfl
  | cons c rest ih =>
      have hc : c ≠ sep := h c (List.mem_cons_self c rest)
      have ih2 := ih (fun d hd => h d (List.mem_cons_of_mem c hd))
      simp only [splitChar, if_neg hc, ih2]

lemma splitChar_append_sep {sep : Char} {x : List Char} (t : List Char)
    (h : ∀ c ∈ x, c ≠ sep) :
    splitChar sep (x ++ sep :: t) = x :: splitChar sep t := by
  induction x with
  | nil => simp [splitChar]
  | cons c rest ih =>
      have hc : c ≠ sep := h c (List.mem_cons_self c rest)
      have ih2 := ih (fun d hd => h d (List.mem_cons_of_mem c hd))
      simp only [List.cons_append, splitChar, if_neg hc, List.append_eq, ih2]

lemma natDigitChar_range {m : Nat} (h : m < 16) :
    48 ≤ (natDigitChar m).toNat ∧ (natDigitChar m).toNat ≤ 102 := by
  interval_cases m <;> decide

lemma toDigitsAux_chars {b : Nat} (hb1 : 0 < b) (hb2 : b ≤ 16) :
    ∀ (fuel n : Nat) (acc : List Char),
      (∀ c ∈ acc, 48 ≤ c.toNat ∧ c.toNat ≤ 102) →
      ∀ c ∈ toDigitsAux b fuel n acc, 48 ≤ c.toNat ∧ c.toNat ≤ 102 := by
  intro fuel
  induction fuel with
  | zero => intro n acc hacc c hc; exact hacc c hc
  | succ f ih =>
      intro n acc hacc c hc
      have hd : 48 ≤ (natDigitChar (n % b)).toNat ∧ (natDigitChar (n % b)).toNat ≤ 102 :=
        natDigitChar_range (lt_of_lt_of_le (Nat.mod_lt n hb1) hb2)
      simp only [toDigitsAux] at hc
      by_cases hn : n < b
      · rw [if_pos hn] at hc
        rcases List.mem_cons.mp hc with rfl | h2
        · exact hd
        · exact hacc c h2
      · rw [if_neg hn] at hc
        refine ih (n / b) _ ?_ c hc
        intro d hdm
        rcases List.mem_cons.mp hdm with rfl | h2
        · exact hd
        · exact hacc d h2

lemma toDigitsBase_chars {b : Nat} (hb1 : 0 < b) (hb2 : b ≤ 16) (n : Nat) :
    ∀ c ∈ toDigitsBase b n, 48 ≤ c.toNat ∧ c.toNat ≤ 102 :=
  toDigitsAux_chars hb1 hb2 (n + 1) n []
    (fun c hc => absurd hc (List.not_mem_nil c))

lemma decStr_chars (n : Nat) : ∀ c ∈ decStr n, 48 ≤ c.toNat ∧ c.toNat ≤ 102 :=
  toDigitsBase_chars (by omega) (by omega) n

lemma hexStr_chars (n : Nat) : ∀ c ∈ hexStr n, 48 ≤ c.toNat ∧ c.toNat ≤ 102 :=
  toDigitsBase_chars (by omega) (by omega) n

lemma ne_comma_append {s t : GoString} (hs : ∀ c ∈ s, c ≠ ',')
    (ht : ∀ c ∈ t, c ≠ ',') : ∀ c ∈ s ++ t, c ≠ ',' := by
  intro c hc
  rcases List.mem_append.mp hc with h | h
  · exact hs c h
  · exact ht c h

lemma ne_comma_cons {c0 : Char} (h0 : c0 ≠ ',') {t : GoString}
    (ht : ∀ c ∈ t, c ≠ ',') : ∀ c ∈ c0 :: t, c ≠ ',' := by
  intro c hc
  rcases List.mem_cons.mp hc with rfl | h
  · exact h0
  · exact ht c h

lemma ne_comma_of_range {s : GoString}
    (hs : ∀ c ∈ s, 48 ≤ c.toNat ∧ c.toNat ≤ 102) : ∀ c ∈ s, c ≠ ',' := by
  intro c hc heq
  have h2 := hs c hc
  rw [heq] at h2
  exact absurd h2.1 (by decide)

lemma string4_ne_comma (b0 b1 b2 b3 : Nat) :
    ∀ c ∈ string4 b0 b1 b2 b3, c ≠ ',' := by
  show ∀ c ∈ decStr b0 ++ ('.' :: decStr b1) ++ ('.' :: decStr b2) ++
      ('.' :: decStr b3), c ≠ ','
  refine ne_comma_append (ne_comma_append (ne_comma_append ?_ ?_) ?_) ?_
  · exact ne_comma_of_range (decStr_chars b0)
  · exact ne_comma_cons (by decide) (ne_comma_of_range (decStr_chars b1))
  · exact ne_comma_cons (by decide) (ne_comma_of_range (decStr_chars b2))
  · exact ne_comma_cons (by decide) (ne_comma_of_range (decStr_chars b3))

lemma string6Loop_ne_comma (g : Nat → Nat) (zs ze : Nat) :
    ∀ (fuel i : Nat), ∀ c ∈ string6Loop g zs ze fuel i, c ≠ ',' := by
  intro fuel
  induction fuel with
  | zero => intro i c hc; exact absurd hc (List.not_mem_nil c)
  | succ f ih =>
      intro i c hc
      simp only [string6Loop] at hc
      by_cases hi : i < 8
      · rw [if_pos hi] at hc
        by_cases hz : i = zs
        · rw [if_pos hz] at hc
          by_cases he : 8 ≤ ze
          · rw [if_pos he] at hc
            rcases List.mem_cons.mp hc with rfl | hc2
            · decide
            rcases List.mem_cons.mp hc2 with rfl | hc3
            · decide
            exact absurd hc3 (List.not_mem_nil c)
          · rw [if_neg he] at hc
            rcases List.mem_cons.mp hc with rfl | hc2
            · decide
            rcases List.mem_cons.mp hc2 with rfl | hc3
            · decide
            rcases List.mem_append.mp hc3 with h | h
            · exact ne_comma_of_range (hexStr_chars _) c h
            · exact ih _ c h
        · rw [if_neg hz] at hc
          rcases List.mem_append.mp hc with h | h
          · rcases List.mem_append.mp h with h2 | h2
            · by_cases h0 : 0 < i
              · rw [if_pos h0] at h2
                rcases List.mem_cons.mp h2 with rfl | h3
                · decide
                · exact absurd h3 (List.not_mem_nil c)
              · rw [if_neg h0] at h2
                exact absurd h2 (List.not_mem_nil c)
            · exact ne_comma_of_range (hexStr_chars _) c h2
          · exact ih _ c h
      · rw [if_neg hi] at hc
        exact absurd hc (List.not_mem_nil c)

lemma addrString_ne_comma (a : GoAddr) : ∀ c ∈ addrString a, c ≠ ',' := by
  cases a with
  | v4 b0 b1 b2 b3 => exact string4_ne_comma b0 b1 b2 b3
  | v6 g0 g1 g2 g3 g4 g5 g6 g7 =>
      simp only [addrString]
      by_cases h : is4In6 g0 g1 g2 g3 g4 g5 = true
      · rw [if_pos h]
        refine ne_comma_cons (by decide) (ne_comma_cons (by decide)
          (ne_comma_cons (by decide) (ne_comma_cons (by decide)
          (ne_comma_cons (by decide) (ne_comma_cons (by decide)
          (ne_comma_cons (by decide) (string4_ne_comma _ _ _ _)))))))
      · rw [if_neg h]
        simp only [string6]
        exact string6Loop_ne_comma _ _ _ 9 0

lemma pfxString_ne_comma (p : IpPfx) : ∀ c ∈ pfxString p, c ≠ ',' := by
  show ∀ c ∈ addrString p.addr ++ '/' :: decStr p.bits, c ≠ ','
  exact ne_comma_append (addrString_ne_comma p.addr)
    (ne_comma_cons (by decide) (ne_comma_of_range (decStr_chars p.bits)))

lemma pfxString_ne_nil (p : IpPfx) : pfxString p ≠ [] := by
  show addrString p.addr ++ '/' :: decStr p.bits ≠ []
  simp

lemma dropStart_append (pre s : GoString) : dropStart pre (pre ++ s) = some s := by
  induction pre with
  | nil => rfl
  | cons p ps ih =>
      simp only [List.cons_append, dropStart, eq_self_iff_true, if_true,
        List.append_eq, ih]

lemma dropEnd_append (suf s : GoString) : dropEnd suf (s ++ suf) = some s := by
  simp only [dropEnd, List.reverse_append, dropStart_append, List.reverse_reverse]

lemma splitElems_joinCommaSpace : ∀ (xs : List GoString),
    (∀ x ∈ xs, ∀ c ∈ x, c ≠ ',') → xs ≠ [] →
    splitElems (joinCommaSpace xs) = xs := by
  intro xs
  induction xs with
  | nil => intro _ h; exact absurd rfl h
  | cons x rest ih =>
      intro hx _
      cases rest with
      | nil =>
          simp only [joinCommaSpace, splitElems]
          rw [splitChar_eq_single (hx x (List.mem_cons_self x []))]
          rfl
      | cons y rest2 =>
          have hxc := hx x (List.mem_cons_self _ _)
          have hrest : ∀ x2 ∈ y :: rest2, ∀ c ∈ x2, c ≠ ',' :=
            fun x2 h2 => hx x2 (List.mem_cons_of_mem x h2)
          have ih2 := ih hrest (by simp)
          have h1 : splitChar ',' (x ++ ',' :: (' ' :: joinCommaSpace (y :: rest2))) =
              x :: splitChar ',' (' ' :: joinCommaSpace (y :: rest2)) :=
            splitChar_append_sep _ hxc
          rcases hsp : splitChar ',' (joinCommaSpace (y :: rest2)) with _ | ⟨p, ps⟩
          · exact absurd hsp (splitChar_ne_nil ',' _)
          have h2 : splitChar ',' (' ' :: joinCommaSpace (y :: rest2)) =
              (' ' :: p) :: ps := by
            simp only [splitChar, if_neg (by decide : ¬(' ' = ',')), hsp]
          simp only [splitElems, hsp] at ih2
          show splitElems (x ++ ',' :: ' ' :: joinCommaSpace (y :: rest2)) =
            x :: y :: rest2
          simp only [splitElems, h1, h2, List.map_cons]
          injection ih2 with hpy hps
          rw [hps, hpy]

/-- C9: parsing a generated set block back with the trivial line-oriented
reader recovers exactly the supplied country code, the address-family
token `<ipType>_addr`, and the prefixes' canonical CIDR texts in the
order supplied. -/
theorem writeNFTSet_roundtrip (code ipType : GoString) (pfxs : List IpPfx) :
    parseSetBlock (writeNFTSet code pfxs ipType) =
      some (code, ipType ++ "_addr".toList, pfxs.map pfxString) := by
  have hnc : ∀ x ∈ pfxs.map pfxString, ∀ c ∈ x, c ≠ ',' := by
    intro x hx
    rcases List.mem_map.mp hx with ⟨q, -, rfl⟩
    exact pfxString_ne_comma q
  simp only [writeNFTSet, parseSetBlock, List.append_assoc, dropStart_append,
    dropEnd_append, eq_self_iff_true, and_self, if_true]
  cases pfxs with
  | nil => rfl
  | cons p rest =>
      have hne : joinCommaSpace ((p :: rest).map pfxString) ≠ [] := by
        cases rest with
        | nil =>
            simp only [List.map_cons, List.map_nil, joinCommaSpace]
            exact pfxString_ne_nil p
        | cons q rest2 =>
            simp only [List.map_cons, joinCommaSpace]
            simp
      rw [if_neg hne, splitElems_joinCommaSpace _ hnc (by simp)]

lemma upperAZ_ne_slash {a : Char} (h : 'A' ≤ a ∧ a ≤ 'Z') : a ≠ '/' := by
  intro heq
  rw [heq] at h
  exact absurd h.1 (by decide)

lemma upperAZ_ne_dot {a : Char} (h : 'A' ≤ a ∧ a ≤ 'Z') : a ≠ '.' := by
  intro heq
  rw [heq] at h
  exact absurd h.1 (by decide)

lemma startsWithChar_append_of_ne {s1 x : List Char} {ch : Char}
    (h1 : s1 ≠ []) (h : ∀ c ∈ s1, c ≠ ch) :
    startsWithChar ch (s1 ++ x) = false := by
  cases s1 with
  | nil => exact absurd rfl h1
  | cons c rest =>
      have hc := h c (List.mem_cons_self c rest)
      simp only [List.cons_append, startsWithChar, beq_eq_false_iff_ne, ne_eq]
      exact hc

lemma cleanLoop_all_push (segs : List (List Char)) :
    ∀ (stack : List (List Char)),
      (∀ s ∈ segs, s ≠ [] ∧ s ≠ ['.'] ∧ s ≠ ['.', '.']) → ∀ (rooted : Bool),
      cleanLoop rooted stack segs = segs.reverse ++ stack := by
  induction segs with
  | nil => intro stack _ rooted; simp [cleanLoop]
  | cons s rest ih =>
      intro stack h rooted
      obtain ⟨hne, hdot, hdd⟩ := h s (List.mem_cons_self s rest)
      have h2 := fun s2 hs2 => h s2 (List.mem_cons_of_mem s hs2)
      simp only [cleanLoop]
      rw [if_neg (fun hh => Or.elim hh hne hdot), if_neg hdd,
        ih (s :: stack) h2 rooted]
      simp

lemma splitChar_joinChar {sep : Char} : ∀ (segs : List (List Char)), segs ≠ [] →
    (∀ s ∈ segs, ∀ c ∈ s, c ≠ sep) →
    splitChar sep (joinChar sep segs) = segs := by
  intro segs
  induction segs with
  | nil => intro h _; exact absurd rfl h
  | cons x rest ih =>
      intro _ h
      cases rest with
      | nil =>
          simp only [joinChar]
          exact splitChar_eq_single (h x (List.mem_cons_self x []))
      | cons y rest2 =>
          have hx := h x (List.mem_cons_self _ _)
          have hrest := fun s hs => h s (List.mem_cons_of_mem x hs)
          have ih2 := ih (by simp) hrest
          show splitChar sep (x ++ sep :: joinChar sep (y :: rest2)) = x :: y :: rest2
          rw [splitChar_append_sep _ hx, ih2]

lemma filepathClean_plain (segs : List (List Char)) (hne : segs ≠ [])
    (h : ∀ s ∈ segs, s ≠ [] ∧ s ≠ ['.'] ∧ s ≠ ['.', '.'] ∧ ∀ c ∈ s, c ≠ '/') :
    filepathClean (joinChar '/' segs) = joinChar '/' segs := by
  obtain ⟨x, rest, rfl⟩ : ∃ x rest, segs = x :: rest := by
    cases segs with
    | nil => exact absurd rfl hne
    | cons x rest => exact ⟨x, rest, rfl⟩
  obtain ⟨hxne, -, -, hxsl⟩ := h x (List.mem_cons_self x rest)
  obtain ⟨t, hJ⟩ : ∃ t, joinChar '/' (x :: rest) = x ++ t := by
    cases rest with
    | nil => exact ⟨[], by simp [joinChar]⟩
    | cons y rest2 => exact ⟨'/' :: joinChar '/' (y :: rest2), rfl⟩
  have hroot : startsWithChar '/' (joinChar '/' (x :: rest)) = false := by
    rw [hJ]
    exact startsWithChar_append_of_ne hxne hxsl
  have hJne : joinChar '/' (x :: rest) ≠ [] := by
    rw [hJ]
    cases x with
    | nil => exact absurd rfl hxne
    | cons c r => simp
  have hsp : splitChar '/' (joinChar '/' (x :: rest)) = x :: rest :=
    splitChar_joinChar (x :: rest) hne (fun s hs => (h s hs).2.2.2)
  simp only [filepathClean, hsp, hroot]
  rw [if_neg hJne]
  rw [cleanLoop_all_push (x :: rest) []
    (fun s hs => ⟨(h s hs).1, (h s hs).2.1, (h s hs).2.2.1⟩) false]
  simp only [List.append_nil, List.reverse_reverse, Bool.false_eq_true, if_false]
  rw [if_neg hJne]

lemma countryDir_plain {a b : Char} (ha : 'A' ≤ a ∧ a ≤ 'Z')
    (hb : 'A' ≤ b ∧ b ≤ 'Z') :
    countryDir [a, b] = "by_country".toList ++ '/' :: [a, b] := by
  have hadot : a ≠ '.' := upperAZ_ne_dot ha
  show goJoin2 ("by_country".toList) [a, b] = _
  simp only [goJoin2]
  rw [if_neg (by decide), if_neg (by simp)]
  have := filepathClean_plain ["by_country".toList, [a, b]] (by simp) ?_
  · simpa [joinChar] using this
  · intro s hs
    rcases List.mem_cons.mp hs with rfl | hs2
    · refine ⟨by decide, by decide, by decide, by decide⟩
    rcases List.mem_cons.mp hs2 with rfl | hs3
    · refine ⟨by simp, by simp, by simp [hadot], ?_⟩
      intro c hc
      rcases List.mem_cons.mp hc with rfl | hc2
      · exact upperAZ_ne_slash ha
      rcases List.mem_cons.mp hc2 with rfl | hc3
      · exact upperAZ_ne_slash hb
      exact absurd hc3 (List.not_mem_nil c)
    · exact absurd hs3 (List.not_mem_nil s)

lemma countryFileName_plain {a b : Char} (ha : 'A' ≤ a ∧ a ≤ 'Z')
    (hb : 'A' ≤ b ∧ b ≤ 'Z') {ipType : GoString}
    (ht : ∀ c ∈ ipType, c ≠ '/') :
    countryFileName [a, b] ipType = specCountryPath [a, b] ipType := by
  have hadot : a ≠ '.' := upperAZ_ne_dot ha
  have hfile : ([a, b] ++ '_' :: (ipType ++ ".nft".toList)) ≠ [] := by simp
  show goJoin2 (countryDir [a, b]) ([a, b] ++ '_' :: (ipType ++ ".nft".toList)) = _
  rw [countryDir_plain ha hb]
  simp only [goJoin2]
  rw [if_neg (by simp), if_neg hfile]
  have hseg3 : ∀ c ∈ [a, b] ++ '_' :: (ipType ++ ".nft".toList), c ≠ '/' := by
    intro c hc
    rcases List.mem_append.mp hc with h1 | h1
    · rcases List.mem_cons.mp h1 with rfl | h2
      · exact upperAZ_ne_slash ha
      rcases List.mem_cons.mp h2 with rfl | h3
      · exact upperAZ_ne_slash hb
      exact absurd h3 (List.not_mem_nil c)
    · rcases List.mem_cons.mp h1 with rfl | h2
      · decide
      rcases List.mem_append.mp h2 with h3 | h3
      · exact ht c h3
      · intro heq
        subst heq
        revert h3
        decide
  have := filepathClean_plain
    ["by_country".toList, [a, b], [a, b] ++ '_' :: (ipType ++ ".nft".toList)]
    (by simp) ?_
  · have hshape :
        joinChar '/' ["by_country".toList, [a, b],
          [a, b] ++ '_' :: (ipType ++ ".nft".toList)] =
        ("by_country".toList ++ '/' :: [a, b]) ++ '/' ::
          ([a, b] ++ '_' :: (ipType ++ ".nft".toList)) := by
      simp [joinChar]
    rw [hshape] at this
    rw [this]
    show _ = "by_country/".toList ++ [a, b] ++ '/' ::
      ([a, b] ++ '_' :: (ipType ++ ".nft".toList))
    simp
  · intro s hs
    rcases List.mem_cons.mp hs with rfl | hs2
    · refine ⟨by decide, by decide, by decide, by decide⟩
    rcases List.mem_cons.mp hs2 with rfl | hs3
    · refine ⟨by simp, by simp, by simp [hadot], ?_⟩
      intro c hc
      rcases List.mem_cons.mp hc with rfl | hc2
      · exact upperAZ_ne_slash ha
      rcases List.mem_cons.mp hc2 with rfl | hc3
      · exact upperAZ_ne_slash hb
      exact absurd hc3 (List.not_mem_nil c)
    rcases List.mem_cons.mp hs3 with rfl | hs4
    · refine ⟨by simp, by simp [hadot], by simp [hadot], hseg3⟩
    · exact absurd hs4 (List.not_mem_nil s)

lemma filterMap_countryFiles_aux (m : PfxMap) (t : GoString)
    (l : List (GoString × List IpPfx)) :
    l.filterMap (fun kv => generateCountryFile kv.1 (mapGet m kv.1) t) =
      (l.filter (fun kv => !((mapGet m kv.1).length == 0))).map (fun kv =>
        (countryFileName kv.1 t,
          headerLines ++ writeNFTSet kv.1 (mapGet m kv.1) t ++ [closingLine])) := by
  induction l with
  | nil => rfl
  | cons kv rest ih =>
      by_cases hlen : (mapGet m kv.1).length = 0
      · have hnone : generateCountryFile kv.1 (mapGet m kv.1) t = none := by
          simp only [generateCountryFile, if_pos hlen]
        have hpred : (!((mapGet m kv.1).length == 0)) = false := by rw [hlen]; rfl
        simp only [List.filterMap_cons, hnone, List.filter_cons, hpred,
          Bool.false_eq_true, if_false]
        exact ih
      · have hsome : generateCountryFile kv.1 (mapGet m kv.1) t =
            some (countryFileName kv.1 t,
              headerLines ++ writeNFTSet kv.1 (mapGet m kv.1) t ++ [closingLine]) := by
          simp only [generateCountryFile, if_neg hlen]
        have hpred : (!((mapGet m kv.1).length == 0)) = true := by
          rcases Nat.exists_eq_succ_of_ne_zero hlen with ⟨k, hk⟩
          rw [hk]
          rfl
        simp only [List.filterMap_cons, hsome, List.filter_cons, hpred, if_true,
          List.map_cons]
        rw [ih]

/-- C6: a per-country file is created iff that country's bucket for that
family is non-empty; a created file for a valid code is named
`by_country/<code>/<code>_<ipType>.nft` and holds exactly the two header
lines, one set block for that country, and the closing brace line; over a
whole state the created files are exactly those of the nonempty buckets
of each family. -/
theorem generateCountryFile_spec :
    (∀ (code : GoString) (pfxs : List IpPfx) (ipType : GoString),
      generateCountryFile code pfxs ipType = none ↔ pfxs = []) ∧
    (∀ (code : GoString) (pfxs : List IpPfx) (ipType : GoString),
      isValidCountryCode code = true → (∀ c ∈ ipType, c ≠ '/') → pfxs ≠ [] →
      generateCountryFile code pfxs ipType =
        some (specCountryPath code ipType,
          headerLines ++ writeNFTSet code pfxs ipType ++ [closingLine])) ∧
    (∀ st : GeoState,
      generateCountryFiles st =
        ((st.ipv4.filter (fun kv => !((mapGet st.ipv4 kv.1).length == 0))).map
          (fun kv => (countryFileName kv.1 ("ipv4".toList),
            headerLines ++ writeNFTSet kv.1 (mapGet st.ipv4 kv.1) ("ipv4".toList) ++
              [closingLine]))) ++
        ((st.ipv6.filter (fun kv => !((mapGet st.ipv6 kv.1).length == 0))).map
          (fun kv => (countryFileName kv.1 ("ipv6".toList),
            headerLines ++ writeNFTSet kv.1 (mapGet st.ipv6 kv.1) ("ipv6".toList) ++
              [closingLine])))) := by
  refine ⟨?_, ?_, ?_⟩
  · intro code pfxs ipType
    constructor
    · intro h
      by_contra hne
      have hlen : ¬(pfxs.length = 0) := fun h0 => hne (List.length_eq_zero.mp h0)
      simp only [generateCountryFile, if_neg hlen] at h
      cases h
    · intro h
      subst h
      simp [generateCountryFile]
  · intro code pfxs ipType hvalid ht hne
    obtain ⟨a, b, rfl, ha, hb⟩ := (isValidCountryCode_shape code).mp hvalid
    have hlen : ¬(pfxs.length = 0) := fun h0 => hne (List.length_eq_zero.mp h0)
    simp only [generateCountryFile, if_neg hlen]
    rw [countryFileName_plain ha hb ht]
  · intro st
    show (st.ipv4.filterMap _) ++ (st.ipv6.filterMap _) = _
    rw [filterMap_countryFiles_aux st.ipv4 ("ipv4".toList) st.ipv4,
      filterMap_countryFiles_aux st.ipv6 ("ipv6".toList) st.ipv6]

/-- Witness for C6: a nonempty "US" IPv4 bucket creates exactly the file
`by_country/US/US_ipv4.nft` with header, one set block, and closing
brace; an empty bucket creates none. -/
theorem generateCountryFile_spec_witness :
    generateCountryFile ("US".toList) [⟨GoAddr.v4 1 2 3 0, 24⟩] ("ipv4".toList) =
      some (specCountryPath ("US".toList) ("ipv4".toList),
        headerLines ++ writeNFTSet ("US".toList) [⟨GoAddr.v4 1 2 3 0, 24⟩]
          ("ipv4".toList) ++ [closingLine]) ∧
    generateCountryFile ("US".toList) [] ("ipv6".toList) = none :=
  ⟨generateCountryFile_spec.2.1 ("US".toList) [⟨GoAddr.v4 1 2 3 0, 24⟩]
      ("ipv4".toList) (by decide) (by decide) (by simp),
   (generateCountryFile_spec.1 ("US".toList) [] ("ipv6".toList)).mpr rfl⟩

lemma globalLoopRun_eq_none (fs : FS) (m : PfxMap) :
    ∀ l, globalLoopRun fs m l = none := by
  intro l
  induction l with
  | nil => rfl
  | cons code rest ih =>
      simp only [globalLoopRun, writeNFTSetRun]
      by_cases h : (mapGet m code).length = 0
      · rw [if_pos h]
        exact ih
      · rw [if_neg h]
        exact ih

lemma generateGlobalFileRun_none_iff (fs : FS) (m : PfxMap) (f : GoString) :
    generateGlobalFileRun fs m f = none ↔ fs.openOk f = true := by
  cases hopen : fs.openOk f with
  | false =>
      simp only [generateGlobalFileRun, hopen]
      simp
  | true =>
      simp only [generateGlobalFileRun, hopen]
      simp [globalLoopRun_eq_none fs m]

lemma generateCountryFileRun_none_iff (fs : FS) (code : GoString)
    (pfxs : List IpPfx) (t : GoString) :
    generateCountryFileRun fs code pfxs t = none ↔
      (pfxs.length = 0 ∨
        (fs.mkdirOk (countryDir code) = true ∧
         fs.openOk (countryFileName code t) = true)) := by
  simp only [generateCountryFileRun, writeNFTSetRun]
  by_cases h0 : pfxs.length = 0
  · rw [if_pos h0]
    simp [h0]
  · rw [if_neg h0]
    cases hmk : fs.mkdirOk (countryDir code) with
    | false => simp [hmk, h0]
    | true =>
        cases hop : fs.openOk (countryFileName code t) with
        | false => simp [hop, hmk, h0]
        | true => simp [hop, hmk, h0]

lemma countryLoopRun_none_iff (fs : FS) (m : PfxMap) (t : GoString) :
    ∀ l : List GoString,
      (countryLoopRun fs m t l = none ↔
        ∀ code ∈ l, (mapGet m code).length = 0 ∨
          (fs.mkdirOk (countryDir code) = true ∧
           fs.openOk (countryFileName code t) = true)) := by
  intro l
  induction l with
  | nil => simp [countryLoopRun]
  | cons code rest ih =>
      simp only [countryLoopRun]
      cases hc : generateCountryFileRun fs code (mapGet m code) t with
      | some e =>
          constructor
          · intro h
            cases h
          · intro h
            have h2 := (generateCountryFileRun_none_iff fs code (mapGet m code) t).mpr
              (h code (List.mem_cons_self code rest))
            rw [hc] at h2
            cases h2
      | none =>
          constructor
          · intro h code2 hc2
            rcases List.mem_cons.mp hc2 with rfl | h3
            · exact (generateCountryFileRun_none_iff fs code2 (mapGet m code2) t).mp hc
            · exact (ih.mp h) code2 h3
          · intro h
            exact ih.mpr (fun code2 h3 => h code2 (List.mem_cons_of_mem code h3))

lemma generateAllFilesRun_none_iff (fs : FS) (st : GeoState) :
    generateAllFilesRun fs st = none ↔
      (fs.mkdirOk ("by_country".toList) = true ∧
       fs.openOk ("geoip_ipv4.nft".toList) = true ∧
       fs.openOk ("geoip_ipv6.nft".toList) = true ∧
       (∀ code ∈ mapKeys st.ipv4, (mapGet st.ipv4 code).length = 0 ∨
         (fs.mkdirOk (countryDir code) = true ∧
          fs.openOk (countryFileName code ("ipv4".toList)) = true)) ∧
       (∀ code ∈ mapKeys st.ipv6, (mapGet st.ipv6 code).length = 0 ∨
         (fs.mkdirOk (countryDir code) = true ∧
          fs.openOk (countryFileName code ("ipv6".toList)) = true))) := by
  simp only [generateAllFilesRun]
  cases hmk : fs.mkdirOk ("by_country".toList) with
  | false => simp [hmk]
  | true =>
      rw [if_neg (by simp [hmk])]
      cases hg4 : generateGlobalFileRun fs st.ipv4 ("geoip_ipv4.nft".toList) with
      | some e =>
          have h4 := generateGlobalFileRun_none_iff fs st.ipv4 ("geoip_ipv4.nft".toList)
          rw [hg4] at h4
          have hopen : fs.openOk ("geoip_ipv4.nft".toList) = false := by
            cases hop : fs.openOk ("geoip_ipv4.nft".toList) with
            | false => rfl
            | true => simpa using h4.mpr hop
          constructor
          · intro h
            cases h
          · rintro ⟨-, hop4, -⟩
            rw [hopen] at hop4
            cases hop4
      | none =>
          have h4 : fs.openOk ("geoip_ipv4.nft".toList) = true := by
            have h := generateGlobalFileRun_none_iff fs st.ipv4 ("geoip_ipv4.nft".toList)
            rw [hg4] at h
            exact h.mp rfl
          cases hg6 : generateGlobalFileRun fs st.ipv6 ("geoip_ipv6.nft".toList) with
          | some e =>
              have h6 := generateGlobalFileRun_none_iff fs st.ipv6 ("geoip_ipv6.nft".toList)
              rw [hg6] at h6
              have hopen : fs.openOk ("geoip_ipv6.nft".toList) = false := by
                cases hop : fs.openOk ("geoip_ipv6.nft".toList) with
                | false => rfl
                | true => simpa using h6.mpr hop
              constructor
              · intro h
                cases h
              · rintro ⟨-, -, hop6, -⟩
                rw [hopen] at hop6
                cases hop6
          | none =>
              have h6 : fs.openOk ("geoip_ipv6.nft".toList) = true := by
                have h := generateGlobalFileRun_none_iff fs st.ipv6 ("geoip_ipv6.nft".toList)
                rw [hg6] at h
                exact h.mp rfl
              cases hl4 : countryLoopRun fs st.ipv4 ("ipv4".toList) (mapKeys st.ipv4) with
              | some e =>
                  have hnall : ¬(∀ code ∈ mapKeys st.ipv4,
                      (mapGet st.ipv4 code).length = 0 ∨
                      (fs.mkdirOk (countryDir code) = true ∧
                       fs.openOk (countryFileName code ("ipv4".toList)) = true)) := by
                    intro hall
                    have h := (countryLoopRun_none_iff fs st.ipv4 ("ipv4".toList)
                      (mapKeys st.ipv4)).mpr hall
                    rw [hl4] at h
                    cases h
                  constructor
                  · intro h
                    cases h
                  · rintro ⟨-, -, -, hall4, -⟩
                    exact absurd hall4 hnall
              | none =>
                  have hl4p := (countryLoopRun_none_iff fs st.ipv4 ("ipv4".toList)
                    (mapKeys st.ipv4)).mp hl4
                  rw [countryLoopRun_none_iff fs st.ipv6 ("ipv6".toList)
                    (mapKeys st.ipv6)]
                  exact ⟨fun h => ⟨rfl, h4, h6, hl4p, h⟩, fun h => h.2.2.2.2⟩

lemma fsAllOk_iff (fs : FS) (st : GeoState) :
    fsAllOk fs st = true ↔
      (fs.mkdirOk ("by_country".toList) = true ∧
       fs.openOk ("geoip_ipv4.nft".toList) = true ∧
       fs.openOk ("geoip_ipv6.nft".toList) = true ∧
       (∀ code ∈ mapKeys st.ipv4, (mapGet st.ipv4 code).length = 0 ∨
         (fs.mkdirOk (countryDir code) = true ∧
          fs.openOk (countryFileName code ("ipv4".toList)) = true)) ∧
       (∀ code ∈ mapKeys st.ipv6, (mapGet st.ipv6 code).length = 0 ∨
         (fs.mkdirOk (countryDir code) = true ∧
          fs.openOk (countryFileName code ("ipv6".toList)) = true))) := by
  simp only [fsAllOk, Bool.and_eq_true, List.all_eq_true, Bool.or_eq_true,
    beq_iff_eq]
  tauto

lemma countryLoopRun_writeOk (fs : FS) (w : Bool) (m : PfxMap) (t : GoString) :
    ∀ l, countryLoopRun ⟨fs.mkdirOk, fs.openOk, w⟩ m t l = countryLoopRun fs m t l := by
  intro l
  induction l with
  | nil => rfl
  | cons code rest ih =>
      simp only [countryLoopRun]
      have heq : generateCountryFileRun ⟨fs.mkdirOk, fs.openOk, w⟩ code
          (mapGet m code) t = generateCountryFileRun fs code (mapGet m code) t := rfl
      rw [heq]
      cases generateCountryFileRun fs code (mapGet m code) t with
      | some e => rfl
      | none => exact ih

/-- C7 counterexample: with every directory creation and file open
succeeding but every content write failing, the run still reports
success — `writeNFTSet` returns nil unconditionally (main.go:288) and the
`fmt.Fprint*` error results are discarded — so a failure while writing
file content does not abort the run, contrary to the claim. -/
theorem writeFailure_not_fatal :
    generateAllFilesRun ⟨fun _ => true, fun _ => true, false⟩
        { ipv4 := [("US".toList, [⟨GoAddr.v4 1 2 3 0, 24⟩])], ipv6 := [] } = none ∧
    FS.writeOk ⟨fun _ => true, fun _ => true, false⟩ = false :=
  ⟨rfl, rfl⟩

/-- C7 amended: failures of directory creation and of file
creation/opening are fatal — the run succeeds exactly when every mkdir
and open it attempts succeeds — but failures of the content-writing calls
are ignored: the run's outcome never depends on whether writes succeed. -/
theorem generateAllFilesRun_spec (fs : FS) (st : GeoState) :
    (generateAllFilesRun fs st = none ↔ fsAllOk fs st = true) ∧
    (∀ w : Bool, generateAllFilesRun ⟨fs.mkdirOk, fs.openOk, w⟩ st =
      generateAllFilesRun fs st) := by
  constructor
  · rw [generateAllFilesRun_none_iff fs st, fsAllOk_iff fs st]
  · intro w
    have hg : ∀ (m : PfxMap) (f : GoString),
        generateGlobalFileRun ⟨fs.mkdirOk, fs.openOk, w⟩ m f =
          generateGlobalFileRun fs m f := by
      intro m f
      simp only [generateGlobalFileRun]
      rw [globalLoopRun_eq_none ⟨fs.mkdirOk, fs.openOk, w⟩ m,
        globalLoopRun_eq_none fs m]
    simp only [generateAllFilesRun, hg, countryLoopRun_writeOk fs w]

/-- Witness for C7's amended theorem at a concrete file system and state:
the run's outcome is the same with failing and with succeeding writes. -/
theorem generateAllFilesRun_spec_witness :
    generateAllFilesRun ⟨fun _ => true, fun _ => true, false⟩
        { ipv4 := [], ipv6 := [] } =
      generateAllFilesRun ⟨fun _ => true, fun _ => true, true⟩
        { ipv4 := [], ipv6 := [] } :=
  (generateAllFilesRun_spec ⟨fun _ => true, fun _ => true, true⟩
    { ipv4 := [], ipv6 := [] }).2 false

end MaxmindToNft
